import Mathlib

/-!
Verification of the ranked-candidate exchange format, the judgment-filtering
evaluator, the LLM reranking drivers and the data preparer of a BM25 / S-BERT /
LLM-reranking retrieval pipeline.

The Python sources are shallowly embedded as executable Lean definitions:

* text is List Char (wrapped in String at the record level); Python str.split,
  str.strip, int(...) and the regex search for bracketed integers are modelled
  character by character;
* Python dict objects keyed by the decimal strings str(1), ..., str(K) are
  modelled by positional lookup against the decimal rendering of the key,
  which has the same observable behaviour because the keys are distinct;
* machine floats carried by the score column are modelled as rationals; no
  claim depends on float rounding, only on the order of scores and on the
  formatted text being one whitespace-free token;
* a generative-model response is Option String, none standing for a response
  object whose text attribute is empty or missing (a blocked response);
* fallible Python code (indexing and int conversion that can raise) returns
  Except PyErr.

Whitespace is modelled as space, tab, newline and carriage return, the cases
Python str.split and str.strip treat as separators that can actually occur in
the flat files of this pipeline.
-/

/-- Python whitespace test for the characters occurring in the exchange files
(space, tab, newline, carriage return). -/
def isWs (c : Char) : Bool :=
  c = ' ' || c = '\t' || c = '\n' || c = '\r'

/-- ASCII decimal digit test, as used by int(...) and by the regex digit
class on the ASCII text handled here. -/
def isDigitChar (c : Char) : Bool :=
  48 ≤ c.toNat && c.toNat ≤ 57

/-- The decimal digit characters, as produced by Python str on 0, ..., 9. -/
def digitChar : Nat → Char
  | 0 => '0' | 1 => '1' | 2 => '2' | 3 => '3' | 4 => '4'
  | 5 => '5' | 6 => '6' | 7 => '7' | 8 => '8' | _ => '9'

/-- Fuel-driven core of decimal rendering: with fuel at least n this produces
the decimal digits of n, most significant first, exactly as Python str does
on a nonnegative int. -/
def natToDecCore : Nat → Nat → List Char
  | 0, n => [digitChar (n % 10)]
  | fuel + 1, n =>
      if n < 10 then [digitChar n]
      else natToDecCore fuel (n / 10) ++ [digitChar (n % 10)]

/-- Decimal rendering of a natural number, Python str(n). -/
def natToDecChars (n : Nat) : List Char :=
  natToDecCore n n

/-- Numeric value of a list of decimal digit characters. -/
def decVal (l : List Char) : Nat :=
  l.foldl (fun a c => 10 * a + (c.toNat - 48)) 0

/-- Python str.strip of trailing whitespace. -/
def dropTrailingWs (l : List Char) : List Char :=
  (l.reverse.dropWhile isWs).reverse

/-- Python str.strip: remove leading and trailing whitespace. -/
def pyStripChars (l : List Char) : List Char :=
  dropTrailingWs (l.dropWhile isWs)

/-- Accumulator pass of Python str.split with no separator argument: split on
runs of whitespace, discarding empty pieces. -/
def pySplitAux : List Char → List Char → List (List Char)
  | [], acc => if acc.isEmpty then [] else [acc.reverse]
  | c :: rest, acc =>
      if isWs c then
        if acc.isEmpty then pySplitAux rest []
        else acc.reverse :: pySplitAux rest []
      else pySplitAux rest (c :: acc)

/-- Python str.split with no separator argument. -/
def pySplitWs (l : List Char) : List (List Char) :=
  pySplitAux l []

/-- A whitespace-free nonempty piece of text: what survives str.split as one
field. -/
def isTokC (l : List Char) : Prop :=
  l ≠ [] ∧ ∀ c ∈ l, isWs c = false

/-- Token property at the String level. -/
def isTok (s : String) : Prop :=
  isTokC s.data

/-- Rendering counterpart of an f-string joining fields with single spaces. -/
def joinSpace : List (List Char) → List Char
  | [] => []
  | [t] => t
  | t :: t2 :: ts => t ++ ' ' :: joinSpace (t2 :: ts)

/-- Python int(...) on one whitespace-separated field: strips surrounding
whitespace and accepts a nonempty all-digit numeral (the only shape of rank
field this pipeline ever writes; a sign would also be accepted by Python but
never occurs). Returns none where Python raises ValueError. -/
def pyIntTok (l : List Char) : Option Nat :=
  let t := pyStripChars l
  if t.isEmpty then none
  else if t.all isDigitChar then some (decVal t) else none

/-- One-pass scan equivalent to re.findall of a bracketed integer group, in
left-to-right order of first appearance.  The state is none outside a
candidate match and some ds inside one, ds holding the digits read since the
opening bracket in reverse.  On a failed candidate the regex engine resumes
one position after the opening bracket; the characters consumed since then
are digits, which cannot begin a match, so resuming at the current character
is equivalent. -/
def findBNAux : List Char → Option (List Char) → List (List Char)
  | [], _ => []
  | c :: rest, none =>
      if c = '[' then findBNAux rest (some [])
      else findBNAux rest none
  | c :: rest, some ds =>
      if isDigitChar c then findBNAux rest (some (c :: ds))
      else if c = ']' && !ds.isEmpty then ds.reverse :: findBNAux rest none
      else if c = '[' then findBNAux rest (some [])
      else findBNAux rest none

/-- All bracket-enclosed digit groups of a text, as re.findall returns them. -/
def findBracketNums (l : List Char) : List (List Char) :=
  findBNAux l none

/-- Fuel-driven core of Python str.split with an explicit nonempty separator;
the fuel is the length of the text, which bounds the number of steps. -/
def splitOnSeqCore (sep : List Char) : Nat → List Char → List Char →
    List (List Char)
  | _, [], acc => [acc.reverse]
  | 0, l, acc => [acc.reverse ++ l]
  | f + 1, c :: cs, acc =>
      if sep.isPrefixOf (c :: cs) then
        acc.reverse :: splitOnSeqCore sep f ((c :: cs).drop sep.length) []
      else splitOnSeqCore sep f cs (c :: acc)

/-- Python str.split with an explicit separator string (empty pieces kept).
Python raises on an empty separator; the sources only pass nonempty ones. -/
def splitOnSeq (sep l : List Char) : List (List Char) :=
  if sep.isEmpty then [l] else splitOnSeqCore sep l.length l []

/-- The separator literal of the few-shot response parser. -/
def rankingSep : List Char :=
  'R' :: 'a' :: 'n' :: 'k' :: 'i' :: 'n' :: 'g' :: ':' :: []

/-- The few-shot parser isolates the final segment: the part after the last
occurrence of the ranking marker if the marker occurs, else the last line.
Membership of the marker is tested through the split, which has more than one
piece exactly when Python reports the marker as a substring. -/
def fewShotFinal (l : List Char) : List Char :=
  let parts := splitOnSeq rankingSep l
  if parts.length > 1 then parts.getLastD []
  else (splitOnSeq ['\n'] l).getLastD []

/-- The prompt labels candidate i (0-based) with the bracketed number i + 1;
this is the dict key str(i + 1) of the index-to-docid table. -/
def keyOf (i : Nat) : List Char :=
  natToDecChars (i + 1)

/-- Position of a parsed index string in the index-to-docid table of a
k-candidate prompt: the i < k with key string equal to the parsed text. -/
def posOf (k : Nat) (s : List Char) : Option Nat :=
  (List.range k).find? (fun i => s = keyOf i)

/-- Lookup of a parsed index in the index-to-docid dict: returns the docid of
the addressed candidate, none when the index addresses no known candidate. -/
def docMapLookup (docs : List String) (s : List Char) : Option String :=
  (posOf docs.length s).bind (fun i => docs.get? i)

/-- The fallback index list 1, ..., K used when no bracketed number parses:
str(k) for k in range(1, len(doc_list) + 1). -/
def fallbackKeys (k : Nat) : List (List Char) :=
  (List.range k).map keyOf

/-- Write loop of the zero-shot reranker: for rank, idx in
enumerate(ranked_indices, 1), a line is written only if idx is a key of the
doc map, but the rank counter advances for every parsed index. -/
def zeroShotRecs (docs : List String) : List (List Char) → Nat →
    List (Nat × String)
  | [], _ => []
  | idx :: rest, rank =>
      match docMapLookup docs idx with
      | some d => (rank, d) :: zeroShotRecs docs rest (rank + 1)
      | none => zeroShotRecs docs rest (rank + 1)

/-- Records the zero-shot reranker writes for one query, given the candidate
docids and the response (none for a blocked response, mirroring the falsy
test on the text attribute). -/
def zeroShotQuery (docs : List String) (resp : Option String) :
    List (Nat × String) :=
  match resp with
  | none => []
  | some t =>
      if t.data.isEmpty then []
      else
        let parsed := findBracketNums (pyStripChars t.data)
        let ranked := if parsed.isEmpty then fallbackKeys docs.length
          else parsed
        zeroShotRecs docs ranked 1

/-- First write loop of the few-shot reranker: indices are looked up in the
doc map, duplicates are skipped through the seen set, and the rank counter
advances only when a line is written.  Returns the records together with the
final rank counter and seen set. -/
def fewShotLoop1 (docs : List String) : List (List Char) → Nat →
    List (List Char) → List (Nat × String) × Nat × List (List Char)
  | [], rank, seen => ([], rank, seen)
  | idx :: rest, rank, seen =>
      match docMapLookup docs idx with
      | some d =>
          if idx ∈ seen then fewShotLoop1 docs rest rank seen
          else
            let out := fewShotLoop1 docs rest (rank + 1) (idx :: seen)
            ((rank, d) :: out.1, out.2)
      | none => fewShotLoop1 docs rest rank seen

/-- Second write loop of the few-shot reranker: every candidate whose key was
never seen is appended in original order at the next available rank. -/
def fewShotAppendAux (docs : List String) (seen : List (List Char)) :
    List Nat → Nat → List (Nat × String)
  | [], _ => []
  | i :: rest, rank =>
      if keyOf i ∈ seen then fewShotAppendAux docs seen rest rank
      else (rank, docs.getD i "") :: fewShotAppendAux docs seen rest (rank + 1)

/-- All records the few-shot reranker writes for one query from a parsed
index list. -/
def fewShotRecords (docs : List String) (ranked : List (List Char)) :
    List (Nat × String) :=
  let out := fewShotLoop1 docs ranked 1 []
  out.1 ++ fewShotAppendAux docs out.2.2 (List.range docs.length) out.2.1

/-- Records the few-shot reranker writes for one query, given the candidate
docids and the response. -/
def fewShotQuery (docs : List String) (resp : Option String) :
    List (Nat × String) :=
  match resp with
  | none => []
  | some t =>
      if t.data.isEmpty then []
      else
        let parsed := findBracketNums (fewShotFinal (pyStripChars t.data))
        let ranked := if parsed.isEmpty then fallbackKeys docs.length
          else parsed
        fewShotRecords docs ranked

/-- The candidate list in its original order with ranks 1, ..., K: what the
fallback is specified to produce. -/
def originalOrder (docs : List String) : List (Nat × String) :=
  List.enumFrom 1 docs

/-- The usable parsed positions of a response, mirroring the seen-set
semantics of the first few-shot write loop: for each parsed index string
that is a key of the k-candidate table and has not occurred before, its
0-based candidate position, in response order. -/
def mentionedAux (k : Nat) : List (List Char) → List (List Char) → List Nat
  | [], _ => []
  | idx :: rest, seen =>
      match posOf k idx with
      | some i =>
          if idx ∈ seen then mentionedAux k rest seen
          else i :: mentionedAux k rest (idx :: seen)
      | none => mentionedAux k rest seen

/-- Usable parsed positions starting from an empty seen set. -/
def mentionedPositions (k : Nat) (ranked : List (List Char)) : List Nat :=
  mentionedAux k ranked []

/-- The usable parsed positions of one few-shot response text, after final
segment isolation, bracket parsing and the empty-parse fallback: the
candidates mentioned by the response, first occurrence only, in response
order. -/
def fewShotUsable (docs : List String) (t : String) : List Nat :=
  mentionedPositions docs.length
    (if (findBracketNums (fewShotFinal (pyStripChars t.data))).isEmpty
      then fallbackKeys docs.length
      else findBracketNums (fewShotFinal (pyStripChars t.data)))

/-- The Python exceptions the exchange-format reader can raise: missing
column (IndexError from parts subscripting) and failed int conversion
(ValueError).  The sources define no dedicated format-violation error. -/
inductive PyErr where
  | indexError
  | valueError
deriving DecidableEq, Repr

/-- Half-to-even rounding of a rational scaled by 10000, the idealized
decimal rounding behind a 4-digit fixed-point float format, written with
integer arithmetic on numerator and denominator so that it evaluates by
kernel reduction.  The remainder of floor division is compared with half the
denominator; on a tie the even neighbour is chosen. -/
def roundScaled4 (q : ℚ) : ℤ :=
  let t : ℤ := q.num * 10000
  let d : ℤ := (q.den : ℤ)
  let f : ℤ := Int.fdiv t d
  let r : ℤ := t - f * d
  if 2 * r < d then f
  else if 2 * r > d then f + 1
  else if f % 2 = 0 then f else f + 1

/-- Left zero-padding to k characters. -/
def padLeftZeros (k : Nat) (l : List Char) : List Char :=
  List.replicate (k - l.length) '0' ++ l

/-- The score column format of the f-strings: fixed-point with exactly 4
fractional digits.  The sources format a machine float; the claims only use
that the result is one whitespace-free field, never its digits. -/
def fmt4Chars (q : ℚ) : List Char :=
  let n : ℤ := roundScaled4 q
  let sign : List Char := if q < 0 then ['-'] else []
  sign ++ natToDecChars (n.natAbs / 10000)
    ++ '.' :: padLeftZeros 4 (natToDecChars (n.natAbs % 10000))

/-- String form of the 4-digit fixed-point score format. -/
def fmt4 (q : ℚ) : String :=
  String.mk (fmt4Chars q)

/-- One candidate record of a run: qid, docid, 1-based rank, score, run tag
(the constant second column Q0 is added at rendering time). -/
structure RunRec where
  qid : String
  docid : String
  rank : Nat
  score : ℚ
  tag : String

/-- Single-space joining of fields, the shape of every f-string writing an
exchange line. -/
def joinTok (fields : List String) : String :=
  String.mk (joinSpace (fields.map String.data))

/-- The TREC line written for one record: qid Q0 docid rank score tag. -/
def renderRunLine (r : RunRec) : String :=
  joinTok [r.qid, "Q0", r.docid, String.mk (natToDecChars r.rank),
    fmt4 r.score, r.tag]

/-- The exchange-format writer: one line per (docid, score) pair, rank
starting at 1 in the given order, as in the BM25 write loop. -/
def writeTrecLines (qid tag : String) (pairs : List (String × ℚ)) :
    List String :=
  (List.enumFrom 0 pairs).map
    (fun p => renderRunLine ⟨qid, p.2.1, p.1 + 1, p.2.2, tag⟩)

/-- Parse of one run line by load_run_file: strip, split on whitespace, then
parts subscripts 0, 2 and 3 with int conversion of the rank.  Subscripting a
missing column raises IndexError, a non-numeric rank raises ValueError. -/
def parseRunLine (line : String) : Except PyErr (String × String × Nat) :=
  let parts := pySplitWs (pyStripChars line.data)
  match parts.get? 0 with
  | none => .error .indexError
  | some q =>
    match parts.get? 2 with
    | none => .error .indexError
    | some d =>
      match parts.get? 3 with
      | none => .error .indexError
      | some r =>
        match pyIntTok r with
        | none => .error .valueError
        | some rank => .ok (String.mk q, String.mk d, rank)

/-- load_run_file over the lines of a run file: keeps the (qid, docid) pairs
whose rank is at most the cutoff, in file order; any malformed line fails the
whole read. -/
def loadRunCandidates : List String → Nat →
    Except PyErr (List (String × String))
  | [], _ => .ok []
  | line :: rest, topK =>
    match parseRunLine line with
    | .error e => .error e
    | .ok (q, d, rank) =>
      match loadRunCandidates rest topK with
      | .error e => .error e
      | .ok acc => .ok (if rank ≤ topK then (q, d) :: acc else acc)

/-- The candidate docids load_run_file associates with one query id, in file
order: the per-query list of the defaultdict. -/
def runDocsFor (lines : List String) (topK : Nat) (qid : String) :
    Except PyErr (List String) :=
  (loadRunCandidates lines topK).map
    (fun l => (l.filter (fun p => p.1 == qid)).map Prod.snd)

/-- load_run_ids of the evaluator: the first field of every line that has at
least one field.  Python collects them into a set; the list here is read
through membership only.  No line can make this reader fail. -/
def loadRunIds (lines : List String) : List String :=
  lines.filterMap
    (fun l => ((pySplitWs (pyStripChars l.data)).head?).map String.mk)

/-- One relevance judgment as ir_measures loads it. -/
structure Qrel where
  queryId : String
  docId : String
  relevance : Int
deriving DecidableEq

/-- The filtering step of the evaluator: keep the judgments whose query id is
among the ids collected from the run file. -/
def filteredQrels (qrels : List Qrel) (runIds : List String) : List Qrel :=
  qrels.filter (fun q => runIds.contains q.queryId)

/-- Modelled from the spec: the reference restriction of a judgment set J to
a query-id set, the set comprehension of judgments whose query id lies in
Q_R, against which the implementation filter is compared. -/
def specRestrictQrels (qrels : List Qrel) (qids : List String) : List Qrel :=
  qrels.filter (fun q => qids.contains q.queryId)

/-- Python str.strip at the String level. -/
def pyStrip (s : String) : String :=
  String.mk (pyStripChars s.data)

/-- Document identifier doc_n assigned by the data preparer. -/
def docIdStr (n : Nat) : String :=
  String.mk ("doc_".data ++ natToDecChars n)

/-- Query identifier query_n assigned by the data preparer from the row
index. -/
def queryIdStr (n : Nat) : String :=
  String.mk ("query_".data ++ natToDecChars n)

/-- State of the data preparer row loop: the text-to-id dict of unique
documents, the document counter, and the corpus, query and judgment lists
under construction. -/
structure PrepState where
  uniqueDocs : List (String × String)
  docCounter : Nat
  corpus : List (String × String)
  queries : List (String × String)
  qrels : List (String × String)

/-- Dict lookup in an insertion-ordered association list; the keys inserted
by the preparer are distinct, so this matches Python dict access. -/
def lookupAssoc (l : List (String × String)) (t : String) : Option String :=
  (l.find? (fun p => p.1 == t)).map Prod.snd

/-- One iteration of the preparer row loop: strip both cells, assign or reuse
the document id keyed by the answer text, assign query_index to the question,
and append one judgment pairing them. -/
def prepRow (st : PrepState) (index : Nat) (row : String × String) :
    PrepState :=
  let queryText := pyStrip row.1
  let docText := pyStrip row.2
  let next :=
    match lookupAssoc st.uniqueDocs docText with
    | none =>
        let newId := docIdStr st.docCounter
        (newId, st.uniqueDocs ++ [(docText, newId)],
          st.corpus ++ [(newId, docText)], st.docCounter + 1)
    | some existingId =>
        (existingId, st.uniqueDocs, st.corpus, st.docCounter)
  { uniqueDocs := next.2.1
    docCounter := next.2.2.2
    corpus := next.2.2.1
    queries := st.queries ++ [(queryIdStr index, queryText)]
    qrels := st.qrels ++ [(queryIdStr index, next.1)] }

/-- The preparer row loop over the remaining rows, carrying the running
index (the dataframe index of iterrows on a default range index). -/
def prepGo : Nat → List (String × String) → PrepState → PrepState
  | _, [], st => st
  | i, row :: rest, st => prepGo (i + 1) rest (prepRow st i row)

/-- The data preparer on a raw table of (question, answer) rows. -/
def prepareData (rows : List (String × String)) : PrepState :=
  prepGo 0 rows ⟨[], 0, [], [], []⟩

/-- One judgment line as written to the qrels file: qid 0 docid 1, the
relevance score being the constant string 1. -/
def qrelLine (p : String × String) : String :=
  joinTok [p.1, "0", p.2, "1"]

/-- All judgment lines the preparer writes. -/
def qrelsLines (st : PrepState) : List String :=
  st.qrels.map qrelLine

/-- Python sorted with key score and reverse (stable descending sort by the
score component), as in the BM25 stage. -/
def pySortDescBySnd (pairs : List (String × ℚ)) : List (String × ℚ) :=
  pairs.mergeSort (fun a b => decide (b.2 ≤ a.2))

/-- Per-query records of the BM25 stage: zip docids with scores, sort by
score descending, take the top 100, write with rank from enumerate plus 1. -/
def bm25QueryRecords (docIds : List String) (scores : List ℚ) :
    List (Nat × String × ℚ) :=
  (List.enumFrom 0 ((pySortDescBySnd (docIds.zip scores)).take 100)).map
    (fun p => (p.1 + 1, p.2.1, p.2.2))

/-- Per-query records of the S-BERT stage: the hits returned by the library
search (corpus index, score), written in order with rank from enumerate plus
1 and the docid looked up by corpus index. -/
def sbertQueryRecords (docIds : List String) (hits : List (Nat × ℚ)) :
    List (Nat × String × ℚ) :=
  (List.enumFrom 0 hits).map
    (fun p => (p.1 + 1, docIds.getD p.2.1 "", p.2.2))

/-- The document identifiers of the corpus under construction. -/
def corpusIds (st : PrepState) : List String :=
  st.corpus.map Prod.fst

/-- The query identifiers of the query list under construction. -/
def queryIds (st : PrepState) : List String :=
  st.queries.map Prod.fst

/-- Loop invariant of the preparer: every id stored in the text-to-id dict
names a corpus entry, and every judgment references a listed query id and a
listed document id. -/
def prepInv (st : PrepState) : Prop :=
  (∀ p ∈ st.uniqueDocs, p.2 ∈ corpusIds st) ∧
  (∀ e ∈ st.qrels, e.1 ∈ queryIds st ∧ e.2 ∈ corpusIds st)

instance (l : List Char) : Decidable (isTokC l) := by
  unfold isTokC
  exact instDecidableAnd

instance (s : String) : Decidable (isTok s) := by
  unfold isTok
  infer_instance

instance {e a : Type} [DecidableEq e] [DecidableEq a] :
    DecidableEq (Except e a) := fun x y =>
  match x, y with
  | .error e1, .error e2 =>
    if h : e1 = e2 then isTrue (by rw [h])
    else isFalse (fun hc => h (Except.error.inj hc))
  | .ok v1, .ok v2 =>
    if h : v1 = v2 then isTrue (by rw [h])
    else isFalse (fun hc => h (Except.ok.inj hc))
  | .error _, .ok _ => isFalse (fun hc => Except.noConfusion hc)
  | .ok _, .error _ => isFalse (fun hc => Except.noConfusion hc)

theorem not_isWs_of_isDigitChar {c : Char} (h : isDigitChar c = true) :
    isWs c = false := by
  unfold isWs
  simp only [Bool.or_eq_false_iff, decide_eq_false_iff_not]
  refine ⟨⟨⟨?_, ?_⟩, ?_⟩, ?_⟩ <;>
    · intro hc
      subst hc
      exact absurd h (by decide)

theorem digitChar_isDigit {d : Nat} (h : d < 10) :
    isDigitChar (digitChar d) = true := by
  interval_cases d <;> decide

theorem digitChar_toNat {d : Nat} (h : d < 10) :
    (digitChar d).toNat = 48 + d := by
  interval_cases d <;> decide

theorem natToDecCore_fuel (f1 f2 n : Nat) (h1 : n ≤ f1) (h2 : n ≤ f2) :
    natToDecCore f1 n = natToDecCore f2 n := by
  induction f1 using Nat.strong_induction_on generalizing f2 n with
  | _ f1 ih =>
    match f1, f2 with
    | 0, 0 => rfl
    | 0, f2 + 1 =>
      interval_cases n
      simp [natToDecCore]
    | f1 + 1, 0 =>
      interval_cases n
      simp [natToDecCore]
    | f1 + 1, f2 + 1 =>
      by_cases hn : n < 10
      · simp [natToDecCore, hn]
      · have hd : n / 10 ≤ f1 := by omega
        have hd2 : n / 10 ≤ f2 := by
          have := Nat.div_le_self n 10
          omega
        simp only [natToDecCore, hn, if_false]
        rw [ih f1 (by omega) f2 (n / 10) hd hd2]

theorem decVal_append_digit (l : List Char) (c : Char) :
    decVal (l ++ [c]) = 10 * decVal l + (c.toNat - 48) := by
  unfold decVal
  rw [List.foldl_append]
  rfl

theorem decVal_natToDecChars (n : Nat) : decVal (natToDecChars n) = n := by
  induction n using Nat.strong_induction_on with
  | _ n ih =>
    by_cases hn : n < 10
    · unfold natToDecChars
      match n, hn with
      | n, hn =>
        cases n with
        | zero => decide
        | succ m =>
          simp only [natToDecCore, hn, if_true]
          unfold decVal
          simp only [List.foldl_cons, List.foldl_nil]
          rw [digitChar_toNat hn]
          omega
    · have hpos : 0 < n := by omega
      unfold natToDecChars
      cases n with
      | zero => omega
      | succ m =>
        simp only [natToDecCore, hn, if_false]
        rw [natToDecCore_fuel m ((m + 1) / 10) ((m + 1) / 10)
              (by have := Nat.div_le_self (m + 1) 10; omega) (le_refl _)]
        rw [decVal_append_digit]
        have hrec : decVal (natToDecChars ((m + 1) / 10)) = (m + 1) / 10 :=
          ih ((m + 1) / 10) (Nat.div_lt_self (by omega) (by omega))
        unfold natToDecChars at hrec
        rw [hrec]
        rw [digitChar_toNat (Nat.mod_lt _ (by omega))]
        omega

theorem natToDecChars_injective {m n : Nat}
    (h : natToDecChars m = natToDecChars n) : m = n := by
  have := decVal_natToDecChars m
  rw [h, decVal_natToDecChars] at this
  omega

theorem natToDecCore_ne_nil (f n : Nat) : natToDecCore f n ≠ [] := by
  cases f with
  | zero => simp [natToDecCore]
  | succ f =>
    by_cases hn : n < 10 <;> simp [natToDecCore, hn]

theorem natToDecChars_ne_nil (n : Nat) : natToDecChars n ≠ [] :=
  natToDecCore_ne_nil n n

theorem natToDecCore_digits (f n : Nat) :
    ∀ c ∈ natToDecCore f n, isDigitChar c = true := by
  induction f generalizing n with
  | zero =>
    intro c hc
    simp only [natToDecCore, List.mem_singleton] at hc
    subst hc
    exact digitChar_isDigit (Nat.mod_lt _ (by omega))
  | succ f ih =>
    intro c hc
    by_cases hn : n < 10
    · simp only [natToDecCore, hn, if_true, List.mem_singleton] at hc
      subst hc
      exact digitChar_isDigit hn
    · simp only [natToDecCore, hn, if_false, List.mem_append,
        List.mem_singleton] at hc
      rcases hc with hc | hc
      · exact ih _ c hc
      · subst hc
        exact digitChar_isDigit (Nat.mod_lt _ (by omega))

theorem natToDecChars_digits (n : Nat) :
    ∀ c ∈ natToDecChars n, isDigitChar c = true :=
  natToDecCore_digits n n

theorem pySplitAux_token (t : List Char) (hn : ∀ c ∈ t, isWs c = false) :
    ∀ (rest acc : List Char),
      pySplitAux (t ++ rest) acc = pySplitAux rest (t.reverse ++ acc) := by
  induction t with
  | nil => intro rest acc; simp
  | cons c t' ih =>
    intro rest acc
    have hc : isWs c = false := hn c (List.mem_cons_self _ _)
    have step : pySplitAux ((c :: t') ++ rest) acc
        = pySplitAux (t' ++ rest) (c :: acc) := by
      show pySplitAux (c :: (t' ++ rest)) acc = _
      simp [pySplitAux, hc]
    rw [step, ih (fun c hc => hn c (List.mem_cons_of_mem _ hc)) rest (c :: acc)]
    simp

theorem pySplitAux_ws_suffix (s : List Char) (hs : ∀ c ∈ s, isWs c = true) :
    ∀ (l acc : List Char), pySplitAux (l ++ s) acc = pySplitAux l acc := by
  have base : ∀ (s : List Char), (∀ c ∈ s, isWs c = true) →
      ∀ acc, pySplitAux s acc = pySplitAux [] acc := by
    intro s hs
    induction s with
    | nil => intro acc; rfl
    | cons c s' ih =>
      intro acc
      have hc : isWs c = true := hs c (List.mem_cons_self _ _)
      have ih' := ih (fun c hc => hs c (List.mem_cons_of_mem _ hc))
      simp only [pySplitAux, hc, if_true]
      rw [ih' []]
      by_cases ha : acc.isEmpty <;> simp [pySplitAux, ha]
  intro l
  induction l with
  | nil => intro acc; exact base s hs acc
  | cons c l' ih =>
    intro acc
    simp only [List.cons_append, pySplitAux]
    by_cases hc : isWs c <;> by_cases ha : acc.isEmpty <;>
      simp [hc, ha, ih]

theorem pySplitWs_strip (l : List Char) :
    pySplitWs (pyStripChars l) = pySplitWs l := by
  have lead : ∀ (l : List Char), pySplitWs (l.dropWhile isWs) = pySplitWs l := by
    intro l
    induction l with
    | nil => rfl
    | cons c rest ih =>
      by_cases hc : isWs c
      · simp only [List.dropWhile_cons, hc, if_true]
        rw [ih]
        simp [pySplitWs, pySplitAux, hc]
      · simp [List.dropWhile_cons, hc]
  have trail : ∀ (l : List Char), pySplitWs (dropTrailingWs l) = pySplitWs l := by
    intro l
    have hdecomp : l = dropTrailingWs l ++ (l.reverse.takeWhile isWs).reverse := by
      unfold dropTrailingWs
      conv_lhs => rw [← List.reverse_reverse l,
        ← List.takeWhile_append_dropWhile (p := isWs) (l := l.reverse)]
      rw [List.reverse_append]
    have hws : ∀ c ∈ (l.reverse.takeWhile isWs).reverse, isWs c = true := by
      intro c hc
      rw [List.mem_reverse] at hc
      exact List.mem_takeWhile_imp hc
    conv_rhs => rw [hdecomp]
    unfold pySplitWs
    rw [pySplitAux_ws_suffix _ hws]
  unfold pyStripChars
  rw [trail, lead]

theorem pyStripChars_of_noWs (l : List Char) (h : ∀ c ∈ l, isWs c = false) :
    pyStripChars l = l := by
  have h1 : l.dropWhile isWs = l := by
    cases l with
    | nil => rfl
    | cons c rest =>
      simp [List.dropWhile_cons, h c (List.mem_cons_self _ _)]
  have h2 : l.reverse.dropWhile isWs = l.reverse := by
    cases hrev : l.reverse with
    | nil => rfl
    | cons c rest =>
      have hc : c ∈ l := by
        rw [← List.mem_reverse, hrev]
        exact List.mem_cons_self _ _
      simp [List.dropWhile_cons, h c hc]
  unfold pyStripChars dropTrailingWs
  rw [h1, h2, List.reverse_reverse]

theorem pySplitWs_single_token (t : List Char) (ht : isTokC t) :
    pySplitWs t = [t] := by
  obtain ⟨hne, hnw⟩ := ht
  unfold pySplitWs
  have := pySplitAux_token t hnw [] []
  rw [List.append_nil] at this
  rw [this]
  simp only [pySplitAux, List.append_nil]
  have : t.reverse.isEmpty = false := by
    cases t with
    | nil => exact absurd rfl hne
    | cons c rest => simp [List.isEmpty_iff]
  simp [this]

theorem pySplitWs_cons_token (t rest : List Char) (ht : isTokC t) :
    pySplitWs (t ++ ' ' :: rest) = t :: pySplitWs rest := by
  obtain ⟨hne, hnw⟩ := ht
  unfold pySplitWs
  rw [pySplitAux_token t hnw (' ' :: rest) []]
  have hre : t.reverse.isEmpty = false := by
    cases t with
    | nil => exact absurd rfl hne
    | cons c r => simp [List.isEmpty_iff]
  simp [pySplitAux, isWs, hre]

theorem pySplitWs_joinSpace (toks : List (List Char))
    (h : ∀ t ∈ toks, isTokC t) : pySplitWs (joinSpace toks) = toks := by
  induction toks with
  | nil => rfl
  | cons t ts ih =>
    cases ts with
    | nil =>
      exact pySplitWs_single_token t (h t (List.mem_cons_self _ _))
    | cons t2 ts' =>
      show pySplitWs (t ++ ' ' :: joinSpace (t2 :: ts')) = _
      rw [pySplitWs_cons_token t _ (h t (List.mem_cons_self _ _))]
      rw [ih (fun x hx => h x (List.mem_cons_of_mem _ hx))]

theorem pyIntTok_natToDecChars (n : Nat) :
    pyIntTok (natToDecChars n) = some n := by
  have hstrip : pyStripChars (natToDecChars n) = natToDecChars n :=
    pyStripChars_of_noWs _
      (fun c hc => not_isWs_of_isDigitChar (natToDecChars_digits n c hc))
  unfold pyIntTok
  simp only [hstrip]
  have hne : (natToDecChars n).isEmpty = false := by
    cases hd : natToDecChars n with
    | nil => exact absurd hd (natToDecChars_ne_nil n)
    | cons c r => simp [List.isEmpty_iff]
  have hdig : (natToDecChars n).all isDigitChar = true := by
    rw [List.all_eq_true]
    exact natToDecChars_digits n
  simp [hne, hdig, decVal_natToDecChars]

theorem keyOf_injective {i j : Nat} (h : keyOf i = keyOf j) : i = j := by
  have := natToDecChars_injective h
  omega

theorem find?_eq_some_of_unique {α : Type} {p : α → Bool} :
    ∀ {l : List α} {a : α}, a ∈ l → p a = true →
      (∀ b ∈ l, p b = true → b = a) → l.find? p = some a := by
  intro l
  induction l with
  | nil => intro a ha _ _; exact absurd ha (List.not_mem_nil a)
  | cons c rest ih =>
    intro a ha hp huniq
    by_cases hc : p c = true
    · have : c = a := huniq c (List.mem_cons_self _ _) hc
      subst this
      simp [List.find?, hc]
    · have hcb : p c = false := by
        cases hpc : p c with
        | true => exact absurd hpc hc
        | false => rfl
      have ha' : a ∈ rest := by
        rcases List.mem_cons.mp ha with h | h
        · subst h; exact absurd hp hc
        · exact h
      simp only [List.find?, hcb]
      exact ih ha' hp (fun b hb => huniq b (List.mem_cons_of_mem _ hb))

theorem posOf_eq_some {k : Nat} {s : List Char} {i : Nat} :
    posOf k s = some i ↔ i < k ∧ s = keyOf i := by
  constructor
  · intro h
    have hp := List.find?_some h
    have hm := List.mem_of_find?_eq_some h
    rw [List.mem_range] at hm
    simp only [decide_eq_true_eq] at hp
    exact ⟨hm, hp⟩
  · rintro ⟨hik, hs⟩
    subst hs
    apply find?_eq_some_of_unique (List.mem_range.mpr hik)
    · simp
    · intro b _ hb
      simp only [decide_eq_true_eq] at hb
      exact keyOf_injective hb.symm

theorem docMapLookup_keyOf {docs : List String} {i : Nat}
    (h : i < docs.length) :
    docMapLookup docs (keyOf i) = some (docs.getD i "") := by
  unfold docMapLookup
  rw [show posOf docs.length (keyOf i) = some i from
    posOf_eq_some.mpr ⟨h, rfl⟩]
  simp [List.get?_eq_getElem?, List.getElem?_eq_getElem h,
    List.getD_eq_getElem docs "" h]

theorem docMapLookup_eq_some {docs : List String} {s : List Char} {d : String}
    (h : docMapLookup docs s = some d) :
    ∃ i, i < docs.length ∧ s = keyOf i ∧ docs.getD i "" = d := by
  unfold docMapLookup at h
  cases hp : posOf docs.length s with
  | none => rw [hp] at h; exact absurd h (by simp)
  | some i =>
    rw [hp] at h
    obtain ⟨hik, hs⟩ := posOf_eq_some.mp hp
    refine ⟨i, hik, hs, ?_⟩
    have hg : docs.get? i = some d := h
    rw [List.get?_eq_getElem?, List.getElem?_eq_getElem hik] at hg
    rw [List.getD_eq_getElem docs "" hik]
    exact Option.some.inj hg

theorem fewShotLoop1_cons (docs : List String) (idx : List Char)
    (rest : List (List Char)) (rank : Nat) (seen : List (List Char)) :
    fewShotLoop1 docs (idx :: rest) rank seen =
      match docMapLookup docs idx with
      | some d =>
          if idx ∈ seen then fewShotLoop1 docs rest rank seen
          else ((rank, d) :: (fewShotLoop1 docs rest (rank + 1) (idx :: seen)).1,
            (fewShotLoop1 docs rest (rank + 1) (idx :: seen)).2)
      | none => fewShotLoop1 docs rest rank seen := rfl

/-- Invariant of the first few-shot write loop: its output lists the
documents at a duplicate-free list of positions P, with consecutive ranks
from the entry counter, the final counter advanced by the number of records,
and the seen set extended by exactly the keys of P. -/
theorem fewShotLoop1_spec (docs : List String) :
    ∀ (ranked : List (List Char)) (rank : Nat) (seen : List (List Char)),
      ∃ P : List Nat,
        (fewShotLoop1 docs ranked rank seen).1
            = List.enumFrom rank (P.map (fun i => docs.getD i "")) ∧
        (fewShotLoop1 docs ranked rank seen).2.1 = rank + P.length ∧
        (fewShotLoop1 docs ranked rank seen).2.2
            = (P.map keyOf).reverse ++ seen ∧
        P.Nodup ∧ ∀ p ∈ P, p < docs.length ∧ keyOf p ∉ seen := by
  intro ranked
  induction ranked with
  | nil =>
    intro rank seen
    exact ⟨[], by simp [fewShotLoop1]⟩
  | cons idx rest ih =>
    intro rank seen
    rw [fewShotLoop1_cons]
    cases hdm : docMapLookup docs idx with
    | none =>
      obtain ⟨P, h1, h2, h3, h4, h5⟩ := ih rank seen
      exact ⟨P, h1, h2, h3, h4, h5⟩
    | some d =>
      by_cases hseen : idx ∈ seen
      · obtain ⟨P, h1, h2, h3, h4, h5⟩ := ih rank seen
        simp only [hseen, if_true]
        exact ⟨P, h1, h2, h3, h4, h5⟩
      · obtain ⟨i, hik, hsk, hdk⟩ := docMapLookup_eq_some hdm
        subst hsk
        obtain ⟨P, h1, h2, h3, h4, h5⟩ := ih (rank + 1) (keyOf i :: seen)
        simp only [hseen, if_false]
        refine ⟨i :: P, ?_, ?_, ?_, ?_, ?_⟩
        · simp only [List.map_cons, List.enumFrom_cons, h1, hdk]
        · simp only [h2, List.length_cons]
          omega
        · simp only [h3, List.map_cons, List.reverse_cons,
            List.append_assoc, List.singleton_append]
        · refine List.nodup_cons.mpr ⟨?_, h4⟩
          intro hmem
          exact (h5 i hmem).2 (List.mem_cons_self _ _)
        · intro p hp
          rcases List.mem_cons.mp hp with h | h
          · exact h ▸ ⟨hik, hseen⟩
          · obtain ⟨hlt, hnk⟩ := h5 p h
            refine ⟨hlt, fun hmem => hnk (List.mem_cons_of_mem _ hmem)⟩

/-- The append loop writes the documents at the positions whose key was
never seen, in original order, with consecutive ranks from its entry
counter. -/
theorem fewShotAppendAux_spec (docs : List String) (seen : List (List Char)) :
    ∀ (idxs : List Nat) (rank : Nat),
      fewShotAppendAux docs seen idxs rank
        = List.enumFrom rank
            ((idxs.filter (fun i => decide (keyOf i ∉ seen))).map
              (fun i => docs.getD i "")) := by
  intro idxs
  induction idxs with
  | nil => intro rank; rfl
  | cons i rest ih =>
    intro rank
    by_cases hmem : keyOf i ∈ seen
    · simp only [fewShotAppendAux, hmem, if_true, List.filter_cons,
        decide_eq_true_eq]
      rw [ih rank]
      simp [hmem]
    · simp only [fewShotAppendAux, hmem, if_false]
      rw [ih (rank + 1)]
      simp [List.filter_cons, hmem, List.enumFrom_cons]

theorem map_getD_range (docs : List String) :
    (List.range docs.length).map (fun i => docs.getD i "") = docs := by
  apply List.ext_getElem
  · simp
  · intro n h1 h2
    simp only [List.getElem_map, List.getElem_range]
    exact List.getD_eq_getElem docs "" h2

theorem perm_of_nodup_mem_iff {l1 l2 : List Nat} (h1 : l1.Nodup)
    (h2 : l2.Nodup) (h : ∀ a, a ∈ l1 ↔ a ∈ l2) : l1.Perm l2 := by
  rw [List.perm_iff_count]
  intro a
  by_cases hm : a ∈ l1
  · rw [List.count_eq_one_of_mem h1 hm,
      List.count_eq_one_of_mem h2 ((h a).mp hm)]
  · rw [List.count_eq_zero.mpr hm,
      List.count_eq_zero.mpr (fun hc => hm ((h a).mpr hc))]

/-- Structure of the complete few-shot output for an arbitrary parsed index
list: the documents at a duplicate-free position list P (the usable parsed
indices, in response order), followed by the documents at all remaining
positions in original order, ranked consecutively from 1. -/
theorem fewShotRecords_spec (docs : List String) (ranked : List (List Char)) :
    ∃ P : List Nat, P.Nodup ∧ (∀ p ∈ P, p < docs.length) ∧
      fewShotRecords docs ranked
        = List.enumFrom 1
            ((P ++ (List.range docs.length).filter
                (fun i => decide (i ∉ P))).map
              (fun i => docs.getD i "")) := by
  obtain ⟨P, h1, h2, h3, h4, h5⟩ := fewShotLoop1_spec docs ranked 1 []
  refine ⟨P, h4, fun p hp => (h5 p hp).1, ?_⟩
  have hdef : fewShotRecords docs ranked
      = (fewShotLoop1 docs ranked 1 []).1
        ++ fewShotAppendAux docs (fewShotLoop1 docs ranked 1 []).2.2
            (List.range docs.length) (fewShotLoop1 docs ranked 1 []).2.1 := rfl
  rw [hdef, h1, h2, h3, fewShotAppendAux_spec]
  have hfc : (List.range docs.length).filter
        (fun i => decide (keyOf i ∉ (P.map keyOf).reverse ++ []))
      = (List.range docs.length).filter (fun i => decide (i ∉ P)) := by
    apply List.filter_congr
    intro i _
    simp only [decide_eq_decide, List.append_nil, List.mem_reverse,
      List.mem_map]
    constructor
    · intro hn hip
      exact hn ⟨i, hip, rfl⟩
    · rintro hn ⟨p, hp, hk⟩
      exact hn (keyOf_injective hk ▸ hp)
  rw [hfc, ← List.length_map P (fun i => docs.getD i ""),
    ← List.enumFrom_append, ← List.map_append]

theorem fewShotRecords_perm (docs : List String) (ranked : List (List Char)) :
    ((fewShotRecords docs ranked).map Prod.snd).Perm docs := by
  obtain ⟨P, hnd, hlt, heq⟩ := fewShotRecords_spec docs ranked
  rw [heq, List.enumFrom_map_snd]
  have hpermP : P.Perm ((List.range docs.length).filter
      (fun i => decide (i ∈ P))) := by
    apply perm_of_nodup_mem_iff hnd (List.Nodup.filter _ (List.nodup_range _))
    intro a
    simp only [List.mem_filter, List.mem_range, decide_eq_true_eq]
    exact ⟨fun h => ⟨hlt a h, h⟩, fun h => h.2⟩
  have hfn : (List.range docs.length).filter (fun i => decide (i ∉ P))
      = (List.range docs.length).filter
          (fun i => !(fun j => decide (j ∈ P)) i) := by
    apply List.filter_congr
    intro i _
    simp
  have hperm : (P ++ (List.range docs.length).filter
      (fun i => decide (i ∉ P))).Perm (List.range docs.length) := by
    rw [hfn]
    exact (List.Perm.append_right _ hpermP).trans
      (List.filter_append_perm _ _)
  have hm := List.Perm.map (fun i => docs.getD i "") hperm
  rw [map_getD_range] at hm
  exact hm

theorem fewShotRecords_ranks (docs : List String) (ranked : List (List Char)) :
    (fewShotRecords docs ranked).map Prod.fst
      = List.range' 1 (fewShotRecords docs ranked).length := by
  obtain ⟨P, _, _, heq⟩ := fewShotRecords_spec docs ranked
  rw [heq, List.enumFrom_map_fst]
  simp [List.enumFrom_length]

theorem fewShotRecords_length (docs : List String)
    (ranked : List (List Char)) :
    (fewShotRecords docs ranked).length = docs.length := by
  have := (fewShotRecords_perm docs ranked).length_eq
  rw [List.length_map] at this
  exact this

theorem zeroShotRecs_cons (docs : List String) (idx : List Char)
    (rest : List (List Char)) (rank : Nat) :
    zeroShotRecs docs (idx :: rest) rank =
      match docMapLookup docs idx with
      | some d => (rank, d) :: zeroShotRecs docs rest (rank + 1)
      | none => zeroShotRecs docs rest (rank + 1) := rfl

/-- On an index list whose entries are all keys of in-range positions, the
zero-shot write loop emits exactly the document of each position with
consecutive ranks. -/
theorem zeroShotRecs_keys (docs : List String) :
    ∀ (idxs : List Nat) (r : Nat), (∀ i ∈ idxs, i < docs.length) →
      zeroShotRecs docs (idxs.map keyOf) r
        = List.enumFrom r (idxs.map (fun i => docs.getD i "")) := by
  intro idxs
  induction idxs with
  | nil => intro r _; rfl
  | cons i rest ih =>
    intro r h
    rw [List.map_cons, zeroShotRecs_cons,
      docMapLookup_keyOf (h i (List.mem_cons_self _ _))]
    rw [ih (r + 1) (fun j hj => h j (List.mem_cons_of_mem _ hj))]
    simp [List.enumFrom_cons]

theorem zeroShot_fallback (docs : List String) :
    zeroShotRecs docs (fallbackKeys docs.length) 1 = originalOrder docs := by
  unfold fallbackKeys originalOrder
  rw [zeroShotRecs_keys docs (List.range docs.length) 1
    (fun i hi => List.mem_range.mp hi)]
  rw [map_getD_range]

/-- Every rank the zero-shot loop emits is at least the entry counter. -/
theorem zeroShotRecs_fst_ge (docs : List String) :
    ∀ (idxs : List (List Char)) (r : Nat),
      ∀ x ∈ (zeroShotRecs docs idxs r).map Prod.fst, r ≤ x := by
  intro idxs
  induction idxs with
  | nil => intro r x hx; exact absurd hx (by simp [zeroShotRecs])
  | cons idx rest ih =>
    intro r x hx
    rw [zeroShotRecs_cons] at hx
    cases hdm : docMapLookup docs idx with
    | some d =>
      rw [hdm] at hx
      simp only [List.map_cons, List.mem_cons] at hx
      rcases hx with hx | hx
      · omega
      · have := ih (r + 1) x hx
        omega
    | none =>
      rw [hdm] at hx
      have := ih (r + 1) x hx
      omega

/-- The ranks the zero-shot loop emits are strictly increasing (but, unlike
the other stages, not gap-free: the counter advances even for a discarded
index). -/
theorem zeroShotRecs_fst_sorted (docs : List String) :
    ∀ (idxs : List (List Char)) (r : Nat),
      ((zeroShotRecs docs idxs r).map Prod.fst).Pairwise (· < ·) := by
  intro idxs
  induction idxs with
  | nil => intro r; simp [zeroShotRecs]
  | cons idx rest ih =>
    intro r
    rw [zeroShotRecs_cons]
    cases hdm : docMapLookup docs idx with
    | some d =>
      simp only [List.map_cons]
      refine List.pairwise_cons.mpr ⟨?_, ih (r + 1)⟩
      intro x hx
      have := zeroShotRecs_fst_ge docs rest (r + 1) x hx
      omega
    | none => exact ih (r + 1)

/-- On key lists of duplicate-free in-range positions none of which was
seen, the first few-shot loop emits every position in order. -/
theorem fewShotLoop1_keys (docs : List String) :
    ∀ (idxs : List Nat) (r : Nat) (seen : List (List Char)),
      idxs.Nodup → (∀ i ∈ idxs, i < docs.length) →
      (∀ i ∈ idxs, keyOf i ∉ seen) →
      fewShotLoop1 docs (idxs.map keyOf) r seen
        = (List.enumFrom r (idxs.map (fun i => docs.getD i "")),
            r + idxs.length, (idxs.map keyOf).reverse ++ seen) := by
  intro idxs
  induction idxs with
  | nil => intro r seen _ _ _; simp [fewShotLoop1]
  | cons i rest ih =>
    intro r seen hnd hlt hns
    rw [List.map_cons, fewShotLoop1_cons,
      docMapLookup_keyOf (hlt i (List.mem_cons_self _ _))]
    have hkns : keyOf i ∉ seen := hns i (List.mem_cons_self _ _)
    simp only [hkns, if_false]
    have hrest : fewShotLoop1 docs (rest.map keyOf) (r + 1) (keyOf i :: seen)
        = (List.enumFrom (r + 1) (rest.map (fun j => docs.getD j "")),
            (r + 1) + rest.length, (rest.map keyOf).reverse
              ++ (keyOf i :: seen)) := by
      apply ih
      · exact (List.nodup_cons.mp hnd).2
      · exact fun j hj => hlt j (List.mem_cons_of_mem _ hj)
      · intro j hj
        rw [List.mem_cons]
        rintro (hk | hk)
        · have : j = i := keyOf_injective hk
          subst this
          exact (List.nodup_cons.mp hnd).1 hj
        · exact hns j (List.mem_cons_of_mem _ hj) hk
    rw [hrest]
    refine Prod.ext ?_ (Prod.ext ?_ ?_) <;>
      simp [List.enumFrom_cons, List.reverse_cons, List.append_assoc]
    omega

theorem fewShot_fallback (docs : List String) :
    fewShotRecords docs (fallbackKeys docs.length) = originalOrder docs := by
  have hdef : fewShotRecords docs (fallbackKeys docs.length)
      = (fewShotLoop1 docs (fallbackKeys docs.length) 1 []).1
        ++ fewShotAppendAux docs
            (fewShotLoop1 docs (fallbackKeys docs.length) 1 []).2.2
            (List.range docs.length)
            (fewShotLoop1 docs (fallbackKeys docs.length) 1 []).2.1 := rfl
  have hloop := fewShotLoop1_keys docs (List.range docs.length) 1 []
    (List.nodup_range _) (fun i hi => List.mem_range.mp hi)
    (fun i _ => List.not_mem_nil _)
  rw [hdef]
  unfold fallbackKeys
  rw [hloop, fewShotAppendAux_spec]
  have hfilter : (List.range docs.length).filter
      (fun i => decide (keyOf i ∉
        ((List.range docs.length).map keyOf).reverse ++ [])) = [] := by
    rw [List.filter_eq_nil_iff]
    intro i hi
    simp only [decide_eq_true_eq, List.append_nil, List.mem_reverse,
      Decidable.not_not]
    exact List.mem_map_of_mem keyOf hi
  rw [hfilter]
  simp only [List.map_nil, List.append_nil]
  rw [map_getD_range]
  simp [originalOrder]

theorem natToDecChars_isTok (n : Nat) : isTokC (natToDecChars n) :=
  ⟨natToDecChars_ne_nil n,
    fun c hc => not_isWs_of_isDigitChar (natToDecChars_digits n c hc)⟩

theorem mem_padLeftZeros_noWs (k : Nat) (l : List Char)
    (hl : ∀ c ∈ l, isWs c = false) :
    ∀ c ∈ padLeftZeros k l, isWs c = false := by
  intro c hc
  unfold padLeftZeros at hc
  rcases List.mem_append.mp hc with hc | hc
  · rw [List.eq_of_mem_replicate hc]
    decide
  · exact hl c hc

theorem fmt4Chars_isTok (q : ℚ) : isTokC (fmt4Chars q) := by
  constructor
  · show fmt4Chars q ≠ []
    simp [fmt4Chars]
  · intro c hc
    simp only [fmt4Chars, List.mem_append, List.mem_cons] at hc
    rcases hc with (hc | hc) | hc | hc
    · by_cases hq : q < 0
      · simp only [hq, if_true, List.mem_singleton] at hc
        subst hc
        decide
      · simp only [hq, if_false] at hc
        exact absurd hc (List.not_mem_nil c)
    · exact not_isWs_of_isDigitChar (natToDecChars_digits _ c hc)
    · subst hc
      decide
    · exact mem_padLeftZeros_noWs 4 _
        (fun c hc => not_isWs_of_isDigitChar (natToDecChars_digits _ c hc))
        c hc

theorem renderRunLine_data (r : RunRec) :
    (renderRunLine r).data
      = joinSpace [r.qid.data, "Q0".data, r.docid.data,
          natToDecChars r.rank, fmt4Chars r.score, r.tag.data] := rfl

theorem renderRunLine_split (r : RunRec) (hq : isTok r.qid)
    (hd : isTok r.docid) (ht : isTok r.tag) :
    pySplitWs (pyStripChars (renderRunLine r).data)
      = [r.qid.data, "Q0".data, r.docid.data,
          natToDecChars r.rank, fmt4Chars r.score, r.tag.data] := by
  rw [pySplitWs_strip, renderRunLine_data]
  apply pySplitWs_joinSpace
  intro t htm
  simp only [List.mem_cons, List.not_mem_nil] at htm
  rcases htm with h | h | h | h | h | h | h
  · exact h ▸ hq
  · exact h ▸ ⟨by decide, by decide⟩
  · exact h ▸ hd
  · exact h ▸ natToDecChars_isTok r.rank
  · exact h ▸ fmt4Chars_isTok r.score
  · exact h ▸ ht
  · exact absurd h (by simp)

theorem parseRunLine_render (r : RunRec) (hq : isTok r.qid)
    (hd : isTok r.docid) (ht : isTok r.tag) :
    parseRunLine (renderRunLine r) = .ok (r.qid, r.docid, r.rank) := by
  unfold parseRunLine
  rw [renderRunLine_split r hq hd ht]
  simp only [List.get?]
  rw [pyIntTok_natToDecChars]

theorem loadRunIds_cons (line : String) (rest : List String) :
    loadRunIds (line :: rest)
      = match ((pySplitWs (pyStripChars line.data)).head?).map String.mk with
        | some q => q :: loadRunIds rest
        | none => loadRunIds rest := by
  unfold loadRunIds
  rw [List.filterMap_cons]
  cases ((pySplitWs (pyStripChars line.data)).head?).map String.mk <;> rfl

theorem loadRunIds_render (R : List RunRec)
    (h : ∀ r ∈ R, isTok r.qid ∧ isTok r.docid ∧ isTok r.tag) :
    loadRunIds (R.map renderRunLine) = R.map (fun r => r.qid) := by
  induction R with
  | nil => rfl
  | cons r rest ih =>
    obtain ⟨hq, hd, ht⟩ := h r (List.mem_cons_self _ _)
    rw [List.map_cons, loadRunIds_cons, renderRunLine_split r hq hd ht]
    rw [ih (fun x hx => h x (List.mem_cons_of_mem _ hx))]
    rfl

theorem loadRunCandidates_cons (line : String) (rest : List String)
    (topK : Nat) :
    loadRunCandidates (line :: rest) topK =
      match parseRunLine line with
      | .error e => .error e
      | .ok (q, d, rank) =>
        match loadRunCandidates rest topK with
        | .error e => .error e
        | .ok acc => .ok (if rank ≤ topK then (q, d) :: acc else acc) := rfl

theorem loadRunCandidates_write (qid tag : String) (hq : isTok qid)
    (ht : isTok tag) :
    ∀ (pairs : List (String × ℚ)) (start cutoff : Nat),
      (∀ p ∈ pairs, isTok p.1) → start + pairs.length ≤ cutoff →
      loadRunCandidates ((List.enumFrom start pairs).map
          (fun p => renderRunLine ⟨qid, p.2.1, p.1 + 1, p.2.2, tag⟩)) cutoff
        = .ok (pairs.map (fun p => (qid, p.1))) := by
  intro pairs
  induction pairs with
  | nil => intro start cutoff _ _; rfl
  | cons p rest ih =>
    intro start cutoff hds hlen
    rw [List.enumFrom_cons, List.map_cons, loadRunCandidates_cons]
    rw [parseRunLine_render ⟨qid, p.1, start + 1, p.2, tag⟩ hq
      (hds p (List.mem_cons_self _ _)) ht]
    rw [ih (start + 1) cutoff (fun x hx => hds x (List.mem_cons_of_mem _ hx))
      (by simp only [List.length_cons] at hlen; omega)]
    have hrank : start + 1 ≤ cutoff := by
      simp only [List.length_cons] at hlen
      omega
    simp [hrank]

theorem parseRunLine_short (line : String)
    (h : (pySplitWs (pyStripChars line.data)).length < 4) :
    parseRunLine line = .error PyErr.indexError := by
  unfold parseRunLine
  cases h0 : (pySplitWs (pyStripChars line.data))[0]? with
  | none => simp [h0]
  | some q =>
    cases h2 : (pySplitWs (pyStripChars line.data))[2]? with
    | none => simp [h0, h2]
    | some d =>
      have h3 : (pySplitWs (pyStripChars line.data))[3]? = none := by
        rw [← List.get?_eq_getElem?]
        exact List.get?_eq_none.mpr (by omega)
      simp [h0, h2, h3]

theorem pairwise_enumFrom {α : Type} {R : α → α → Prop} :
    ∀ {l : List α}, l.Pairwise R → ∀ (n : Nat),
      (List.enumFrom n l).Pairwise (fun a b => R a.2 b.2) := by
  intro l
  induction l with
  | nil => intro _ n; simp
  | cons a rest ih =>
    intro h n
    rw [List.enumFrom_cons]
    obtain ⟨hhead, htail⟩ := List.pairwise_cons.mp h
    refine List.pairwise_cons.mpr ⟨?_, ih htail (n + 1)⟩
    intro b hb
    have : b.2 ∈ (List.enumFrom (n + 1) rest).map Prod.snd :=
      List.mem_map_of_mem Prod.snd hb
    rw [List.enumFrom_map_snd] at this
    exact hhead b.2 this

theorem enumFrom_map_fst_add_one {α : Type} :
    ∀ (l : List α) (n : Nat),
      (List.enumFrom n l).map (fun p => p.1 + 1)
        = List.range' (n + 1) l.length := by
  intro l
  induction l with
  | nil => intro n; rfl
  | cons a rest ih =>
    intro n
    rw [List.enumFrom_cons, List.map_cons, List.length_cons,
      List.range'_succ, ih (n + 1)]

theorem lookupAssoc_mem {l : List (String × String)} {t id : String}
    (h : lookupAssoc l t = some id) : ∃ p ∈ l, p.2 = id := by
  unfold lookupAssoc at h
  cases hf : l.find? (fun p => p.1 == t) with
  | none => rw [hf] at h; exact absurd h (by simp)
  | some p =>
    rw [hf] at h
    refine ⟨p, List.mem_of_find?_eq_some hf, ?_⟩
    simpa using h

theorem prepRow_inv (st : PrepState) (i : Nat) (row : String × String)
    (h : prepInv st) : prepInv (prepRow st i row) := by
  obtain ⟨hud, hqr⟩ := h
  cases hl : lookupAssoc st.uniqueDocs (pyStrip row.2) with
  | none =>
    constructor
    · intro p hp
      simp only [prepRow, hl] at hp ⊢
      simp only [corpusIds, List.map_append]
      rcases List.mem_append.mp hp with hp | hp
      · exact List.mem_append_left _ (hud p hp)
      · simp only [List.mem_singleton] at hp
        subst hp
        simp
    · intro e he
      simp only [prepRow, hl] at he ⊢
      simp only [corpusIds, queryIds, List.map_append]
      rcases List.mem_append.mp he with he | he
      · obtain ⟨h1, h2⟩ := hqr e he
        exact ⟨List.mem_append_left _ h1, List.mem_append_left _ h2⟩
      · simp only [List.mem_singleton] at he
        subst he
        constructor
        · simp
        · simp
  | some existingId =>
    constructor
    · intro p hp
      simp only [prepRow, hl] at hp ⊢
      exact hud p hp
    · intro e he
      simp only [prepRow, hl] at he ⊢
      simp only [corpusIds, queryIds, List.map_append]
      rcases List.mem_append.mp he with he | he
      · obtain ⟨h1, h2⟩ := hqr e he
        exact ⟨List.mem_append_left _ h1, h2⟩
      · simp only [List.mem_singleton] at he
        subst he
        constructor
        · simp
        · obtain ⟨p, hp, hpe⟩ := lookupAssoc_mem hl
          exact hpe ▸ hud p hp

theorem prepGo_inv :
    ∀ (rows : List (String × String)) (i : Nat) (st : PrepState),
      prepInv st → prepInv (prepGo i rows st) := by
  intro rows
  induction rows with
  | nil => intro i st h; exact h
  | cons row rest ih =>
    intro i st h
    exact ih (i + 1) (prepRow st i row) (prepRow_inv st i row h)

theorem prepRow_qrels_length (st : PrepState) (i : Nat)
    (row : String × String) :
    (prepRow st i row).qrels.length = st.qrels.length + 1 := by
  cases hl : lookupAssoc st.uniqueDocs (pyStrip row.2) <;>
    simp [prepRow, hl]

theorem prepGo_qrels_length :
    ∀ (rows : List (String × String)) (i : Nat) (st : PrepState),
      (prepGo i rows st).qrels.length = st.qrels.length + rows.length := by
  intro rows
  induction rows with
  | nil => intro i st; simp [prepGo]
  | cons row rest ih =>
    intro i st
    show (prepGo (i + 1) rest (prepRow st i row)).qrels.length = _
    rw [ih (i + 1) (prepRow st i row), prepRow_qrels_length]
    simp only [List.length_cons]
    omega

theorem pySortDescBySnd_sorted (pairs : List (String × ℚ)) :
    (pySortDescBySnd pairs).Pairwise (fun a b => b.2 ≤ a.2) := by
  have h := @List.sorted_mergeSort (String × ℚ)
    (fun a b => decide (b.2 ≤ a.2))
    (fun a b c hab hbc => by
      simp only [decide_eq_true_eq] at hab hbc ⊢
      exact le_trans hbc hab)
    (fun a b => by
      simp only [Bool.or_eq_true, decide_eq_true_eq]
      exact le_total b.2 a.2)
    pairs
  exact h.imp (fun hxy => by simpa using hxy)

theorem bm25QueryRecords_sorted (docIds : List String) (scores : List ℚ) :
    (bm25QueryRecords docIds scores).Pairwise (fun a b => b.2.2 ≤ a.2.2) := by
  unfold bm25QueryRecords
  rw [List.pairwise_map]
  exact pairwise_enumFrom
    (List.Pairwise.sublist (List.take_sublist _ _)
      (pySortDescBySnd_sorted (docIds.zip scores))) 0

theorem sbertQueryRecords_sorted (docIds : List String)
    (hits : List (Nat × ℚ)) (hs : hits.Pairwise (fun a b => b.2 ≤ a.2)) :
    (sbertQueryRecords docIds hits).Pairwise (fun a b => b.2.2 ≤ a.2.2) := by
  unfold sbertQueryRecords
  rw [List.pairwise_map]
  exact pairwise_enumFrom hs 0

theorem bm25QueryRecords_ranks (docIds : List String) (scores : List ℚ) :
    (bm25QueryRecords docIds scores).map Prod.fst
      = List.range' 1 (bm25QueryRecords docIds scores).length := by
  unfold bm25QueryRecords
  rw [List.map_map, List.length_map, List.enumFrom_length]
  exact enumFrom_map_fst_add_one _ 0

theorem sbertQueryRecords_ranks (docIds : List String)
    (hits : List (Nat × ℚ)) :
    (sbertQueryRecords docIds hits).map Prod.fst
      = List.range' 1 (sbertQueryRecords docIds hits).length := by
  unfold sbertQueryRecords
  rw [List.map_map, List.length_map, List.enumFrom_length]
  exact enumFrom_map_fst_add_one _ 0

theorem zeroShotQuery_some (docs : List String) (t : String)
    (hne : t.data ≠ []) :
    zeroShotQuery docs (some t)
      = zeroShotRecs docs
          (if (findBracketNums (pyStripChars t.data)).isEmpty
            then fallbackKeys docs.length
            else findBracketNums (pyStripChars t.data)) 1 := by
  have hie : t.data.isEmpty = false := by
    cases hd : t.data with
    | nil => exact absurd hd hne
    | cons c r => simp [List.isEmpty_iff]
  simp [zeroShotQuery, hie]

theorem fewShotQuery_some (docs : List String) (t : String)
    (hne : t.data ≠ []) :
    fewShotQuery docs (some t)
      = fewShotRecords docs
          (if (findBracketNums (fewShotFinal (pyStripChars t.data))).isEmpty
            then fallbackKeys docs.length
            else findBracketNums (fewShotFinal (pyStripChars t.data))) := by
  have hie : t.data.isEmpty = false := by
    cases hd : t.data with
    | nil => exact absurd hd hne
    | cons c r => simp [List.isEmpty_iff]
  simp [fewShotQuery, hie]

theorem docMapLookup_eq_posOf (docs : List String) (s : List Char) :
    docMapLookup docs s
      = (posOf docs.length s).map (fun i => docs.getD i "") := by
  cases hp : posOf docs.length s with
  | none =>
    unfold docMapLookup
    rw [hp]
    rfl
  | some i =>
    obtain ⟨hik, _⟩ := posOf_eq_some.mp hp
    unfold docMapLookup
    rw [hp]
    show docs.get? i = some (docs.getD i "")
    rw [List.get?_eq_getElem?, List.getElem?_eq_getElem hik,
      List.getD_eq_getElem docs "" hik]

theorem mentionedAux_cons (k : Nat) (idx : List Char)
    (rest seen : List (List Char)) :
    mentionedAux k (idx :: rest) seen =
      match posOf k idx with
      | some i =>
          if idx ∈ seen then mentionedAux k rest seen
          else i :: mentionedAux k rest (idx :: seen)
      | none => mentionedAux k rest seen := rfl

/-- Explicit form of the first-loop invariant: the records of the first
few-shot write loop are the documents at exactly the usable parsed
positions, in response order, with consecutive ranks; the counter advances
by their number and the seen set collects exactly their keys. -/
theorem fewShotLoop1_mentioned (docs : List String) :
    ∀ (ranked : List (List Char)) (rank : Nat) (seen : List (List Char)),
      (fewShotLoop1 docs ranked rank seen).1
          = List.enumFrom rank
              ((mentionedAux docs.length ranked seen).map
                (fun i => docs.getD i ""))
        ∧ (fewShotLoop1 docs ranked rank seen).2.1
            = rank + (mentionedAux docs.length ranked seen).length
        ∧ (fewShotLoop1 docs ranked rank seen).2.2
            = ((mentionedAux docs.length ranked seen).map keyOf).reverse
              ++ seen
        ∧ (mentionedAux docs.length ranked seen).Nodup
        ∧ ∀ p ∈ mentionedAux docs.length ranked seen,
            p < docs.length ∧ keyOf p ∉ seen := by
  intro ranked
  induction ranked with
  | nil =>
    intro rank seen
    refine ⟨rfl, by simp [fewShotLoop1, mentionedAux],
      by simp [fewShotLoop1, mentionedAux],
      by simp [mentionedAux], by simp [mentionedAux]⟩
  | cons idx rest ih =>
    intro rank seen
    rw [fewShotLoop1_cons, mentionedAux_cons]
    cases hp : posOf docs.length idx with
    | none =>
      have hdm : docMapLookup docs idx = none := by
        rw [docMapLookup_eq_posOf, hp]
        rfl
      simp only [hdm, hp]
      exact ih rank seen
    | some i =>
      obtain ⟨hik, hsk⟩ := posOf_eq_some.mp hp
      have hdm : docMapLookup docs idx = some (docs.getD i "") := by
        rw [docMapLookup_eq_posOf, hp]
        rfl
      simp only [hdm, hp]
      subst hsk
      by_cases hseen : keyOf i ∈ seen
      · simp only [hseen, if_true]
        exact ih rank seen
      · simp only [hseen, if_false]
        obtain ⟨h1, h2, h3, h4, h5⟩ := ih (rank + 1) (keyOf i :: seen)
        refine ⟨?_, ?_, ?_, ?_, ?_⟩
        · simp only [List.map_cons, List.enumFrom_cons, h1]
        · simp only [h2, List.length_cons]
          omega
        · simp only [h3, List.map_cons, List.reverse_cons,
            List.append_assoc, List.singleton_append]
        · refine List.nodup_cons.mpr ⟨?_, h4⟩
          intro hmem
          exact (h5 i hmem).2 (List.mem_cons_self _ _)
        · intro p hp2
          rcases List.mem_cons.mp hp2 with h | h
          · exact h ▸ ⟨hik, hseen⟩
          · obtain ⟨hlt, hnk⟩ := h5 p h
            exact ⟨hlt, fun hmem => hnk (List.mem_cons_of_mem _ hmem)⟩

/-- Explicit structure of the complete few-shot output: the documents at the
usable parsed positions in response order, followed by the documents at all
remaining positions in original order, ranked consecutively from 1. -/
theorem fewShotRecords_mentioned (docs : List String)
    (ranked : List (List Char)) :
    (mentionedPositions docs.length ranked).Nodup
  ∧ (∀ p ∈ mentionedPositions docs.length ranked, p < docs.length)
  ∧ fewShotRecords docs ranked
      = List.enumFrom 1
          ((mentionedPositions docs.length ranked
            ++ (List.range docs.length).filter
                (fun i =>
                  decide (i ∉ mentionedPositions docs.length ranked))).map
            (fun i => docs.getD i "")) := by
  obtain ⟨h1, h2, h3, h4, h5⟩ := fewShotLoop1_mentioned docs ranked 1 []
  unfold mentionedPositions
  refine ⟨h4, fun p hp => (h5 p hp).1, ?_⟩
  have hdef : fewShotRecords docs ranked
      = (fewShotLoop1 docs ranked 1 []).1
        ++ fewShotAppendAux docs (fewShotLoop1 docs ranked 1 []).2.2
            (List.range docs.length) (fewShotLoop1 docs ranked 1 []).2.1 :=
    rfl
  rw [hdef, h1, h2, h3, fewShotAppendAux_spec]
  have hfc : (List.range docs.length).filter
        (fun i => decide (keyOf i
          ∉ ((mentionedAux docs.length ranked []).map keyOf).reverse ++ []))
      = (List.range docs.length).filter
          (fun i => decide (i ∉ mentionedAux docs.length ranked [])) := by
    apply List.filter_congr
    intro i _
    simp only [decide_eq_decide, List.append_nil, List.mem_reverse,
      List.mem_map]
    constructor
    · intro hn hip
      exact hn ⟨i, hip, rfl⟩
    · rintro hn ⟨p, hp, hk⟩
      exact hn (keyOf_injective hk ▸ hp)
  rw [hfc,
    ← List.length_map (mentionedAux docs.length ranked [])
        (fun i => docs.getD i ""),
    ← List.enumFrom_append, ← List.map_append]

/-- C1: the evaluator restricts the judgment set to exactly the queries the
run attempted.  For every judgment list J and every run file rendered from
records with whitespace-free token fields, the filtered judgment list passed
to metric aggregation equals the reference restriction of J to the query ids
occurring in the run, so every aggregate metric computed from the filtered
list equals the metric of the manual restriction. -/
theorem evaluator_filters_to_run_queries (J : List Qrel) (R : List RunRec)
    (h : ∀ r ∈ R, isTok r.qid ∧ isTok r.docid ∧ isTok r.tag)
    (m : List Qrel → ℚ) :
    filteredQrels J (loadRunIds (R.map renderRunLine))
        = specRestrictQrels J (R.map (fun r => r.qid))
      ∧ m (filteredQrels J (loadRunIds (R.map renderRunLine)))
        = m (specRestrictQrels J (R.map (fun r => r.qid))) := by
  rw [loadRunIds_render R h]
  exact ⟨rfl, rfl⟩

/-- Witness for C1: judgments over q1..q5, a run covering only q1 and q2;
the filtered evaluation uses exactly the judgments for q1 and q2. -/
theorem evaluator_filters_witness :
    filteredQrels
        [Qrel.mk "q1" "dA" 1, Qrel.mk "q2" "dA" 1, Qrel.mk "q3" "dA" 1,
          Qrel.mk "q4" "dA" 1, Qrel.mk "q5" "dA" 1]
        (loadRunIds ([RunRec.mk "q1" "dA" 1 (1 : ℚ) "BM25",
            RunRec.mk "q2" "dA" 1 (1 : ℚ) "BM25"].map renderRunLine))
      = [Qrel.mk "q1" "dA" 1, Qrel.mk "q2" "dA" 1] :=
  ((evaluator_filters_to_run_queries
      [Qrel.mk "q1" "dA" 1, Qrel.mk "q2" "dA" 1, Qrel.mk "q3" "dA" 1,
        Qrel.mk "q4" "dA" 1, Qrel.mk "q5" "dA" 1]
      [RunRec.mk "q1" "dA" 1 (1 : ℚ) "BM25",
        RunRec.mk "q2" "dA" 1 (1 : ℚ) "BM25"]
      (by decide) (fun l => 0)).1).trans (by decide)

/-- C2 as stated is false on the zero-shot reranker: with candidates dA, dB
and the non-empty response text Ranking: [1], it writes exactly one record,
not two, and dB never appears in the output. -/
theorem zeroShot_incomplete_counterexample :
    zeroShotQuery ["dA", "dB"] (some "Ranking: [1]") = [(1, "dA")]
  ∧ (zeroShotQuery ["dA", "dB"] (some "Ranking: [1]")).length ≠ 2 := by
  decide

/-- C2 (amended): the completeness guarantee holds for the few-shot reranker
on every non-empty response text: exactly K records are written, the docids
are a permutation of the K input candidates, ranks run 1..K, and the output
is exactly the documents at the usable parsed positions of the response
(first occurrence of each usable index, in response order, the computed
list fewShotUsable), followed by all remaining candidates in original
relative order at the next available ranks. -/
theorem fewShot_completeness (docs : List String) (t : String)
    (h : t.data ≠ []) :
    ((fewShotQuery docs (some t)).map Prod.snd).Perm docs
  ∧ (fewShotQuery docs (some t)).map Prod.fst
      = List.range' 1 docs.length
  ∧ (fewShotQuery docs (some t)).length = docs.length
  ∧ (fewShotUsable docs t).Nodup
  ∧ (∀ p ∈ fewShotUsable docs t, p < docs.length)
  ∧ fewShotQuery docs (some t)
      = List.enumFrom 1
          ((fewShotUsable docs t
            ++ (List.range docs.length).filter
                (fun i => decide (i ∉ fewShotUsable docs t))).map
            (fun i => docs.getD i "")) := by
  rw [fewShotQuery_some docs t h]
  obtain ⟨hnd, hlt, heq⟩ := fewShotRecords_mentioned docs
    (if (findBracketNums (fewShotFinal (pyStripChars t.data))).isEmpty
      then fallbackKeys docs.length
      else findBracketNums (fewShotFinal (pyStripChars t.data)))
  refine ⟨fewShotRecords_perm docs _, ?_, fewShotRecords_length docs _,
    hnd, hlt, heq⟩
  rw [fewShotRecords_ranks docs _, fewShotRecords_length docs _]

/-- Witness for C2 (amended) at two candidates and the response [2]. -/
theorem fewShot_completeness_witness :
    ((fewShotQuery ["a", "b"] (some "[2]")).map Prod.snd).Perm ["a", "b"]
  ∧ (fewShotQuery ["a", "b"] (some "[2]")).length
      = (["a", "b"] : List String).length :=
  ⟨(fewShot_completeness ["a", "b"] "[2]" (by decide)).1,
    (fewShot_completeness ["a", "b"] "[2]" (by decide)).2.2.1⟩

/-- C3 as stated is false: a blocked response (no text) leaves the query
absent from the output of both rerankers, instead of producing the original
candidate order. -/
theorem blocked_response_counterexample :
    zeroShotQuery ["dA"] none = []
  ∧ fewShotQuery ["dA"] none = []
  ∧ originalOrder ["dA"] = [(1, "dA")] := by decide

/-- C3 (amended): for every non-empty response, each reranker falls back to
the original candidate order with ranks 1..K under its own parse-empty
condition: for the zero-shot reranker, no bracketed integers anywhere in the
stripped response text; for the few-shot reranker, none in the final segment
it isolates (after the last Ranking: marker, or the last line).  Blocked or
errored responses, and zero-shot responses whose parsed indices all miss,
leave the query absent instead. -/
theorem fallback_original_order (docs : List String) (t : String)
    (hne : t.data ≠ []) :
    (findBracketNums (pyStripChars t.data) = [] →
      zeroShotQuery docs (some t) = originalOrder docs)
  ∧ (findBracketNums (fewShotFinal (pyStripChars t.data)) = [] →
      fewShotQuery docs (some t) = originalOrder docs) := by
  constructor
  · intro hz
    rw [zeroShotQuery_some docs t hne, hz]
    simp only [List.isEmpty_nil, if_true]
    exact zeroShot_fallback docs
  · intro hf
    rw [fewShotQuery_some docs t hne, hf]
    simp only [List.isEmpty_nil, if_true]
    exact fewShot_fallback docs

/-- Witness for C3 (amended): a response with no bracketed integers at all,
and a few-shot response whose earlier text mentions an index but whose final
segment after the Ranking: marker has none. -/
theorem fallback_original_order_witness :
    zeroShotQuery ["a", "b"] (some "no brackets") = originalOrder ["a", "b"]
  ∧ fewShotQuery ["a", "b"] (some "see [1].\nRanking: none")
      = originalOrder ["a", "b"] :=
  ⟨(fallback_original_order ["a", "b"] "no brackets" (by decide)).1
      (by decide),
    (fallback_original_order ["a", "b"] "see [1].\nRanking: none"
      (by decide)).2 (by decide)⟩

/-- C4 as stated is false for the zero-shot reranker: on the response text
Ranking: [2] > [9] > [1] over candidates d1, d2, d3, the document at index 1
receives rank 3, not 2 (the enumerate counter also advanced for the
discarded index 9), and the never-mentioned d3 is not appended. -/
theorem zeroShot_scenario_counterexample :
    zeroShotQuery ["d1", "d2", "d3"] (some "Ranking: [2] > [9] > [1]")
      = [(1, "d2"), (3, "d1")] := by decide

/-- C4 (amended): the described scenario is exactly the few-shot reranker
behaviour, with d2 at rank 1, d1 at rank 2 and d3 appended at rank 3; the
zero-shot reranker instead writes d1 at rank 3 and never appends d3. -/
theorem rerank_scenario_behaviour :
    fewShotQuery ["d1", "d2", "d3"] (some "Ranking: [2] > [9] > [1]")
      = [(1, "d2"), (2, "d1"), (3, "d3")]
  ∧ zeroShotQuery ["d1", "d2", "d3"] (some "Ranking: [2] > [9] > [1]")
      = [(1, "d2"), (3, "d1")] := by decide

/-- C5 as stated is false for the zero-shot reranker: on the scenario input
it writes two records whose ranks are 1 and 3, not the gap-free sequence
1, 2. -/
theorem rank_gap_counterexample :
    (zeroShotQuery ["d1", "d2", "d3"]
        (some "Ranking: [2] > [9] > [1]")).map Prod.fst = [1, 3]
  ∧ [1, 3] ≠ List.range' 1 2 := by decide

/-- C5 (amended): for every per-query record list written by the BM25,
S-BERT and few-shot stages the ranks are exactly 1..M with M the number of
records written; the zero-shot reranker only guarantees strictly increasing
ranks, with gaps where a parsed index was discarded. -/
theorem rank_sequences :
    (∀ (docIds : List String) (scores : List ℚ),
      (bm25QueryRecords docIds scores).map Prod.fst
        = List.range' 1 (bm25QueryRecords docIds scores).length)
  ∧ (∀ (docIds : List String) (hits : List (Nat × ℚ)),
      (sbertQueryRecords docIds hits).map Prod.fst
        = List.range' 1 (sbertQueryRecords docIds hits).length)
  ∧ (∀ (docs : List String) (resp : Option String),
      (fewShotQuery docs resp).map Prod.fst
        = List.range' 1 (fewShotQuery docs resp).length)
  ∧ (∀ (docs : List String) (resp : Option String),
      ((zeroShotQuery docs resp).map Prod.fst).Pairwise (· < ·)) := by
  refine ⟨bm25QueryRecords_ranks, sbertQueryRecords_ranks, ?_, ?_⟩
  · intro docs resp
    cases resp with
    | none => rfl
    | some t =>
      by_cases hne : t.data = []
      · have hie : t.data.isEmpty = true := by simp [hne]
        simp [fewShotQuery, hie]
      · rw [fewShotQuery_some docs t hne]
        exact fewShotRecords_ranks docs _
  · intro docs resp
    cases resp with
    | none => simp [zeroShotQuery]
    | some t =>
      by_cases hne : t.data = []
      · have hie : t.data.isEmpty = true := by simp [hne]
        simp [zeroShotQuery, hie]
      · rw [zeroShotQuery_some docs t hne]
        exact zeroShotRecs_fst_sorted docs _ 1

/-- C6 as stated is false without a whitespace restriction on the query id:
writing one pair under the query id a b produces a line whose fourth
whitespace-separated field is the docid, so reading it back raises a
ValueError instead of returning the docids. -/
theorem roundtrip_whitespace_counterexample :
    runDocsFor (writeTrecLines "a b" "BM25" [("d", (1 : ℚ))]) 10 "a b"
      = Except.error PyErr.valueError
  ∧ runDocsFor (writeTrecLines "a b" "BM25" [("d", (1 : ℚ))]) 10 "a b"
      ≠ Except.ok ["d"] := by decide

/-- C6 (amended): round-trip with nonempty whitespace-free query id, docids
and run tag.  Writing N pairs as TREC lines and reading them back with any
cutoff of at least N yields for that query id exactly the N docids in the
original order. -/
theorem trec_roundtrip (qid tag : String) (pairs : List (String × ℚ))
    (cutoff : Nat) (hq : isTok qid) (ht : isTok tag)
    (hd : ∀ p ∈ pairs, isTok p.1) (hc : pairs.length ≤ cutoff) :
    runDocsFor (writeTrecLines qid tag pairs) cutoff qid
      = Except.ok (pairs.map Prod.fst) := by
  unfold runDocsFor writeTrecLines
  rw [loadRunCandidates_write qid tag hq ht pairs 0 cutoff hd (by omega)]
  show Except.ok
      (((pairs.map (fun p => (qid, p.1))).filter
          (fun p => p.1 == qid)).map Prod.snd)
    = Except.ok (pairs.map Prod.fst)
  have hfil : (pairs.map (fun p => (qid, p.1))).filter (fun p => p.1 == qid)
      = pairs.map (fun p => (qid, p.1)) := by
    apply List.filter_eq_self.mpr
    intro a ha
    obtain ⟨p, hp, hpa⟩ := List.mem_map.mp ha
    rw [← hpa]
    exact beq_self_eq_true qid
  rw [hfil, List.map_map]
  rfl

/-- Witness for C6 (amended) at two pairs and cutoff 10. -/
theorem trec_roundtrip_witness :
    runDocsFor
        (writeTrecLines "q1" "BM25" [("d1", (2 : ℚ)), ("d2", (1 : ℚ))])
        10 "q1"
      = Except.ok ([("d1", (2 : ℚ)), ("d2", (1 : ℚ))].map Prod.fst) :=
  trec_roundtrip "q1" "BM25" [("d1", (2 : ℚ)), ("d2", (1 : ℚ))] 10
    (by decide) (by decide) (by decide) (by decide)

/-- C7 as stated is false on the identifiers: the preparer derives query ids
from the dataframe index as query_0, query_1, not q_0, q_1, and the claimed
judgment line q_0 0 doc_0 1 is not among the written lines. -/
theorem preparer_ids_counterexample :
    (prepareData [("What is theft?", "Theft is X"),
        ("What is fraud?", "Theft is X")]).queries.map Prod.fst
      = ["query_0", "query_1"]
  ∧ "q_0 0 doc_0 1" ∉ qrelsLines (prepareData
      [("What is theft?", "Theft is X"),
        ("What is fraud?", "Theft is X")]) := by decide

/-- C7 (amended): on the two-row input with a shared answer text, the
preparer produces exactly one document doc_0 with text Theft is X, exactly
the two queries query_0 and query_1, and exactly the two judgment lines
query_0 0 doc_0 1 and query_1 0 doc_0 1. -/
theorem preparer_dedup_scenario :
    (prepareData [("What is theft?", "Theft is X"),
        ("What is fraud?", "Theft is X")]).corpus
      = [("doc_0", "Theft is X")]
  ∧ (prepareData [("What is theft?", "Theft is X"),
        ("What is fraud?", "Theft is X")]).queries
      = [("query_0", "What is theft?"), ("query_1", "What is fraud?")]
  ∧ qrelsLines (prepareData [("What is theft?", "Theft is X"),
        ("What is fraud?", "Theft is X")])
      = ["query_0 0 doc_0 1", "query_1 0 doc_0 1"] := by decide

/-- C8 as stated is false: the sources define no dedicated format error.
On the two-field line a b, the evaluator reader load_run_ids succeeds and
collects the first field, and the reranker reader load_run_file raises a
plain IndexError from subscripting the missing rank column. -/
theorem no_format_error_counterexample :
    loadRunIds ["a b"] = ["a"]
  ∧ parseRunLine "a b" = Except.error PyErr.indexError := by decide

/-- C8 (amended): every line with fewer than 4 whitespace-separated fields
makes load_run_file fail with an IndexError (a generic subscripting error,
not a distinguished format error), while load_run_ids never fails on it and
keeps the first field when the line has one. -/
theorem short_line_behaviour (line : String)
    (h : (pySplitWs (pyStripChars line.data)).length < 4) :
    parseRunLine line = Except.error PyErr.indexError
  ∧ ∀ t, (pySplitWs (pyStripChars line.data)).head? = some t →
      loadRunIds [line] = [String.mk t] := by
  refine ⟨parseRunLine_short line h, ?_⟩
  intro t ht
  rw [show ([line] : List String) = line :: [] from rfl, loadRunIds_cons, ht]
  rfl

/-- Witness for C8 (amended) at the two-field line a b. -/
theorem short_line_behaviour_witness :
    parseRunLine "a b" = Except.error PyErr.indexError
  ∧ loadRunIds ["a b"] = [String.mk ['a']] :=
  ⟨(short_line_behaviour "a b" (by decide)).1,
    (short_line_behaviour "a b" (by decide)).2 ['a'] (by decide)⟩

/-- C9: score and rank order agree in the non-LLM runs.  The BM25 per-query
records always carry non-increasing scores along increasing rank, because
the stage sorts by score descending before writing; the S-BERT stage writes
the library hits in order, so its records carry non-increasing scores
whenever the hits are score-sorted, which is the contract of the semantic
search routine. -/
theorem score_rank_agreement (docIds1 : List String) (scores : List ℚ)
    (docIds2 : List String) (hits : List (Nat × ℚ))
    (hs : hits.Pairwise (fun a b => b.2 ≤ a.2)) :
    (bm25QueryRecords docIds1 scores).Pairwise (fun a b => b.2.2 ≤ a.2.2)
  ∧ (sbertQueryRecords docIds2 hits).Pairwise (fun a b => b.2.2 ≤ a.2.2) :=
  ⟨bm25QueryRecords_sorted docIds1 scores,
    sbertQueryRecords_sorted docIds2 hits hs⟩

/-- Witness for C9 at a two-document query for both stages. -/
theorem score_rank_agreement_witness :
    (bm25QueryRecords ["x", "y"] [(1 : ℚ), (2 : ℚ)]).Pairwise
      (fun a b => b.2.2 ≤ a.2.2)
  ∧ (sbertQueryRecords ["x", "y"] [(0, (5 : ℚ)), (1, (3 : ℚ))]).Pairwise
      (fun a b => b.2.2 ≤ a.2.2) :=
  score_rank_agreement ["x", "y"] [(1 : ℚ), (2 : ℚ)] ["x", "y"]
    [(0, (5 : ℚ)), (1, (3 : ℚ))] (by decide)

/-- C10: referential integrity of the prepared outputs.  Every judgment the
preparer writes references a query id present in the queries file and a
document id present in the corpus file of the same run, and the number of
judgment lines equals the number of input rows. -/
theorem preparer_referential_integrity (rows : List (String × String)) :
    (∀ e ∈ (prepareData rows).qrels,
        e.1 ∈ (prepareData rows).queries.map Prod.fst
      ∧ e.2 ∈ (prepareData rows).corpus.map Prod.fst)
  ∧ (prepareData rows).qrels.length = rows.length
  ∧ (qrelsLines (prepareData rows)).length = rows.length := by
  have hinv : prepInv (prepGo 0 rows ⟨[], 0, [], [], []⟩) :=
    prepGo_inv rows 0 ⟨[], 0, [], [], []⟩
      ⟨fun p hp => absurd hp (List.not_mem_nil p),
        fun e he => absurd he (List.not_mem_nil e)⟩
  have hlen := prepGo_qrels_length rows 0 ⟨[], 0, [], [], []⟩
  refine ⟨fun e he => hinv.2 e he, ?_, ?_⟩
  · show (prepGo 0 rows ⟨[], 0, [], [], []⟩).qrels.length = rows.length
    rw [hlen]
    simp
  · show (qrelsLines (prepGo 0 rows ⟨[], 0, [], [], []⟩)).length = rows.length
    unfold qrelsLines
    rw [List.length_map, hlen]
    simp
